import Mathlib

/-!
# Verification of `src/parentheses.js`

A shallow embedding of the parenthesis resolver (`parentheses`) and of the
two evaluators (`evaluate`'s `calc` closure and `fastEvaluate`) from
`src/parentheses.js`, together with proofs about them.

Modelling conventions:
* Token sequences are `List Tok`; the resolver only inspects `token.type`,
  distinguishing `paren_open`, `paren_close` and everything else.
* JavaScript numbers are modelled as exact rationals (`ℚ`).  A JavaScript
  value that is not a finite number (`undefined`, `NaN`, `±Infinity`) is
  modelled as `none : Option ℚ`; arithmetic on such values again yields a
  non-finite value, matching JavaScript's propagation of `NaN`.
  None of the theorems below depends on floating-point rounding: they
  concern error behaviour, agreement of the two evaluation paths (which
  perform bitwise-identical operations in the source), or concrete small
  integer computations that are exact in both models.
* JavaScript exceptions (`throw Error(...)`) are modelled as `Except.error`
  with a structured error payload.
* The lexer, syntax checker and parser (`lexer.js`, `syntax_check.js`,
  `parse.js`) are required by the evaluators but are not part of the
  repository's sources; following the specification, the evaluators are
  modelled from the point where the pipeline hands them a parse tree and
  the `unknowns` list.  The shape of parser output is modelled from the
  specification's data model (`wellFormed` below).
-/

/-- Token kinds relevant to `parentheses` in `src/parentheses.js`: the
resolver inspects only `token.type`, distinguishing `'paren_open'`,
`'paren_close'` and anything else. -/
inductive Tok where
  | paren_open
  | paren_close
  | other
  deriving DecidableEq, Repr

/-- A block record `{ start: i, end: null, level }` as pushed by
`parentheses` (`src/parentheses.js`, lines 15–19); `end` stays `null`
(`none`) until the block is closed.  `end` is a Lean keyword, hence the
quoted field name. -/
structure ParenBlock where
  start : Nat
  «end» : Option Nat
  level : Int
  deriving DecidableEq, Repr

/-- The inner loop of the `paren_close` branch (lines 24–29) scans `parens`
from its last element backwards for the first block whose `end` is still
`null` and sets that block's `end` to `i + 1`.  `closeLastAux` performs the
backward scan on the reversed list (closed blocks have `end = some (i+1)`
with `i + 1 ≥ 1`, so JavaScript's falsiness test `!parens[p].end` is
exactly the `= none` test). -/
def closeLastAux (i : Nat) : List ParenBlock → List ParenBlock
  | [] => []
  | b :: rest =>
    if b.«end» = none then { b with «end» := some (i + 1) } :: rest
    else b :: closeLastAux i rest

/-- Function `closeLast parens i` closes the most recently opened still-open block:
the backward scan of lines 24–29 of `src/parentheses.js`. -/
def closeLast (parens : List ParenBlock) (i : Nat) : List ParenBlock :=
  (closeLastAux i parens.reverse).reverse

/-- The `for` loop of `parentheses` (lines 12–31), with the loop index `i`,
the running `level` counter and the accumulated `parens` array made
explicit.  On `paren_open` the level is incremented and a new open block is
pushed; on `paren_close` the level is decremented, `Error` is thrown
(modelled as `Except.error i`) if it becomes negative, and otherwise the
most recently opened still-open block is closed at `i + 1`. -/
def parenGo : Nat → Int → List ParenBlock → List Tok → Except Nat (List ParenBlock)
  | _, _, parens, [] => Except.ok parens
  | i, level, parens, t :: rest =>
    match t with
    | Tok.paren_open =>
        parenGo (i + 1) (level + 1) (parens ++ [⟨i, none, level + 1⟩]) rest
    | Tok.paren_close =>
        if level - 1 < 0 then Except.error i
        else parenGo (i + 1) (level - 1) (closeLast parens i) rest
    | Tok.other => parenGo (i + 1) level parens rest

/-- Function `parentheses(tokens)` from `src/parentheses.js` (lines 9–33). -/
def parentheses (tokens : List Tok) : Except Nat (List ParenBlock) :=
  parenGo 0 0 [] tokens

/-- Contribution of one token to the running parenthesis depth. -/
def tokDelta : Tok → Int
  | Tok.paren_open => 1
  | Tok.paren_close => -1
  | Tok.other => 0

/-- Balance `bal tokens n` is the running parenthesis depth after the first `n`
tokens (number of `paren_open` minus number of `paren_close` among them). -/
def bal (tokens : List Tok) (n : Nat) : Int :=
  ((tokens.take n).map tokDelta).sum

/-- Predicate `matchIdx tokens s m` states that `m` is the closing index matched with
the opening token at index `s` under LIFO (innermost-first) matching: right
after `m` the running depth first returns to its value before `s`, having
stayed strictly above it in between. -/
def matchIdx (tokens : List Tok) (s m : Nat) : Prop :=
  s < m ∧ bal tokens (m + 1) = bal tokens s ∧
    ∀ k, s < k → k ≤ m → bal tokens s < bal tokens k

/-- Parse-tree nodes as produced by the parsing pipeline and consumed by
the two evaluators' `traverse` functions (`src/parentheses.js`, lines
59–89 and 114–132).  The `operator` field is a string, matched by `if`
chains in the source; a `block` node's single child (`node.child[0]` in
the source) is modelled directly; a `literal` node's string `value` is
modelled by the exact rational value of the (nonnegative) decimal numeral
it denotes; `variable` is a Lean keyword, hence the quoted constructor. -/
inductive Node where
  | block : Node → Node
  | unary_operator : String → Node → Node
  | binary_operator : String → Node → Node → Node
  | literal : ℚ → Node
  | «variable» : String → Node
  deriving DecidableEq, Repr

/-- Parsing `parseFloat(value, 10)` of a literal produced by the lexer
(`src/parentheses.js`, line 86): the decimal numeral's exact value. -/
def jsParseFloat (value : ℚ) : ℚ := value

/-- Parsing `parseInt(value, 10)` of a literal produced by the lexer
(`src/parentheses.js`, line 130): parsing stops at the decimal point, so
the nonnegative numeral's value is truncated to its integer part. -/
def jsParseInt (value : ℚ) : ℚ := (value.floor : ℚ)

/-- JavaScript `/` on finite numbers: division by zero produces
`±Infinity`/`NaN`, i.e. a non-finite value (`none` in this model). -/
def jsDiv (a b : ℚ) : Option ℚ := if b = 0 then none else some (a / b)

/-- JavaScript `**` on finite numbers, modelled exactly on exponents that
are nonnegative integers; other exponents give values outside the rational
model and are abstracted as non-finite. -/
def jsPow (a b : ℚ) : Option ℚ :=
  if b.den = 1 ∧ 0 ≤ b.num then some (a ^ b.num.toNat) else none

/-- JavaScript property read `values[name]` on an object modelled as an
association list with distinct keys: `undefined` (`none`) when absent. -/
def objGet (values : List (String × ℚ)) (name : String) : Option ℚ :=
  (values.find? (fun p => p.1 == name)).map Prod.snd

/-- Check `values.hasOwnProperty(v)` on an object modelled as an association
list with distinct keys. -/
def hasOwnProperty (values : List (String × ℚ)) (name : String) : Bool :=
  values.any (fun p => p.1 == name)

/-- A JavaScript object used as a binding mapping: an association list of
string keys to numbers, with the keys distinct (JavaScript objects cannot
have duplicate keys, and `Object.keys(...).length` counts the distinct
keys). -/
structure JSObj where
  entries : List (String × ℚ)
  nodup : (entries.map Prod.fst).Nodup

/-- The two kinds of `Error` thrown by the binding checks of `calc` and
`fastEvaluate`: the arity error carries the expected and actual key
counts, the missing-variable error carries the variable's name. -/
inductive EvalError where
  | arity : Nat → Nat → EvalError
  | missingVariable : String → EvalError
  deriving DecidableEq, Repr

/-- The `traverse` of `evaluate` (`src/parentheses.js`, lines 60–89),
composed with the application of the attached closures to the binding
mapping: the value `node.fn(variables)` computes.  A node whose operator
matches no case gets no `fn`, so its parent's call yields no finite
number (`none`). -/
def traverseE : Node → List (String × ℚ) → Option ℚ
  | Node.block child, vars => traverseE child vars
  | Node.unary_operator op child, vars =>
    if op = "+" then traverseE child vars
    else if op = "-" then (traverseE child vars).map (fun x => -x)
    else none
  | Node.binary_operator op l r, vars =>
    if op = "+" then
      (traverseE l vars).bind (fun a => (traverseE r vars).map (fun b => a + b))
    else if op = "-" then
      (traverseE l vars).bind (fun a => (traverseE r vars).map (fun b => a - b))
    else if op = "*" then
      (traverseE l vars).bind (fun a => (traverseE r vars).map (fun b => a * b))
    else if op = "/" then
      (traverseE l vars).bind (fun a => (traverseE r vars).bind (fun b => jsDiv a b))
    else if op = "^" then
      (traverseE l vars).bind (fun a => (traverseE r vars).bind (fun b => jsPow a b))
    else none
  | Node.literal value, _ => some (jsParseFloat value)
  | Node.«variable» name, vars => objGet vars name

/-- The `traverse` of `fastEvaluate` (`src/parentheses.js`, lines
115–132): the same walk computed directly.  Note the missing `'^'` case
(the function falls through and returns `undefined`, i.e. `none`) and the
integer-truncating `parseInt` on literals. -/
def traverseF : Node → List (String × ℚ) → Option ℚ
  | Node.block child, values => traverseF child values
  | Node.unary_operator op child, values =>
    if op = "+" then traverseF child values
    else if op = "-" then (traverseF child values).map (fun x => -x)
    else none
  | Node.binary_operator op l r, values =>
    if op = "+" then
      (traverseF l values).bind (fun a => (traverseF r values).map (fun b => a + b))
    else if op = "-" then
      (traverseF l values).bind (fun a => (traverseF r values).map (fun b => a - b))
    else if op = "*" then
      (traverseF l values).bind (fun a => (traverseF r values).map (fun b => a * b))
    else if op = "/" then
      (traverseF l values).bind (fun a => (traverseF r values).bind (fun b => jsDiv a b))
    else none
  | Node.literal value, _ => some (jsParseInt value)
  | Node.«variable» name, values => objGet values name

/-- The `calc` closure returned by `evaluate(expression)`
(`src/parentheses.js`, lines 101–109).  The pipeline stages producing the
parse tree and the `unknowns` list are not under `src/`, so both are
passed explicitly.  The first check throws the arity error when the number
of keys differs from `unknowns.length`; the `for (let v of unknowns)` loop
throws the missing-variable error at the first `v` without a key;
otherwise the evaluation tree's root closure is applied. -/
def «calc» (unknowns : List String) (evaluate_tree : Node) («variables» : JSObj) :
    Except EvalError (Option ℚ) :=
  if «variables».entries.length ≠ unknowns.length then
    Except.error (EvalError.arity unknowns.length «variables».entries.length)
  else
    match unknowns.find? (fun v => !(hasOwnProperty «variables».entries v)) with
    | some v => Except.error (EvalError.missingVariable v)
    | none => Except.ok (traverseE evaluate_tree «variables».entries)

/-- Function `fastEvaluate(expression, values)` (`src/parentheses.js`, lines
114–146) from the point where the pipeline has produced the parse tree and
`unknowns`: the same two binding checks as `calc`, then the direct
recursive walk. -/
def fastEvaluate (parse_tree : Node) (unknowns : List String) (values : JSObj) :
    Except EvalError (Option ℚ) :=
  if values.entries.length ≠ unknowns.length then
    Except.error (EvalError.arity unknowns.length values.entries.length)
  else
    match unknowns.find? (fun v => !(hasOwnProperty values.entries v)) with
    | some v => Except.error (EvalError.missingVariable v)
    | none => Except.ok (traverseF parse_tree values.entries)

/-- Modelled from the spec: the shape of parse trees produced by the
parsing pipeline (`lexer.js`, `syntax_check.js`, `parse.js` are not under
`src/`).  Per the specification's data model, unary operators are `+` or
`-`, binary operators are one of the five `+ - * / ^`, and literals are
nonnegative decimal numerals. -/
def wellFormed : Node → Bool
  | Node.block child => wellFormed child
  | Node.unary_operator op child =>
    (op == "+" || op == "-") && wellFormed child
  | Node.binary_operator op l r =>
    (op == "+" || op == "-" || op == "*" || op == "/" || op == "^") &&
      wellFormed l && wellFormed r
  | Node.literal value => decide (0 ≤ value)
  | Node.«variable» _ => true

/-- Predicate `noPow t` states that no `binary_operator` node of `t` carries the
operator `'^'` (the one operator the direct walk does not handle). -/
def noPow : Node → Bool
  | Node.block child => noPow child
  | Node.unary_operator _ child => noPow child
  | Node.binary_operator op l r => !(op == "^") && noPow l && noPow r
  | Node.literal _ => true
  | Node.«variable» _ => true

/-- Predicate `intLiterals t` states that every literal of `t` is integer-valued. -/
def intLiterals : Node → Bool
  | Node.block child => intLiterals child
  | Node.unary_operator _ child => intLiterals child
  | Node.binary_operator _ l r => intLiterals l && intLiterals r
  | Node.literal value => value.den == 1
  | Node.«variable» _ => true

/-- All subtrees of a parse tree, the tree itself included. -/
def Node.subterms : Node → List Node
  | Node.block child => Node.block child :: child.subterms
  | Node.unary_operator op child =>
    Node.unary_operator op child :: child.subterms
  | Node.binary_operator op l r =>
    Node.binary_operator op l r :: (l.subterms ++ r.subterms)
  | Node.literal value => [Node.literal value]
  | Node.«variable» name => [Node.«variable» name]

instance {ε α : Type} [DecidableEq ε] [DecidableEq α] : DecidableEq (Except ε α) :=
  fun x y =>
    match x, y with
    | Except.ok a, Except.ok b =>
      if h : a = b then isTrue (by rw [h])
      else isFalse (fun hc => h (Except.ok.inj hc))
    | Except.error a, Except.error b =>
      if h : a = b then isTrue (by rw [h])
      else isFalse (fun hc => h (Except.error.inj hc))
    | Except.ok _, Except.error _ => isFalse (fun hc => Except.noConfusion hc)
    | Except.error _, Except.ok _ => isFalse (fun hc => Except.noConfusion hc)

/-- List `levelList n = [1, 2, …, n]` (as integers): the levels of the still-open
blocks, innermost last, when the running counter is `n`. -/
def levelList (n : Nat) : List Int :=
  (List.range n).map (fun j : Nat => (j : Int) + 1)

/-- The empty binding object `{}`. -/
def emptyObj : JSObj := ⟨[], List.nodup_nil⟩

/-- The binding object `{x: 2}`. -/
def xObj : JSObj := ⟨[("x", 2)], by simp⟩

/-- The parse tree of `2 ^ 3`. -/
def powTree : Node := Node.binary_operator "^" (Node.literal 2) (Node.literal 3)

/-- The non-integer literal value `2.5` (i.e. `5/2`), given by explicit
numerator and denominator so that proofs can evaluate it. -/
def twoPointFive : ℚ := ⟨5, 2, by decide, by decide⟩

/-- The parse tree of `1 / 0`. -/
def divZeroTree : Node := Node.binary_operator "/" (Node.literal 1) (Node.literal 0)

theorem bal_zero (tokens : List Tok) : bal tokens 0 = 0 := rfl

theorem bal_succ (tokens : List Tok) (i : Nat) (t : Tok) (h : tokens[i]? = some t) :
    bal tokens (i + 1) = bal tokens i + tokDelta t := by
  unfold bal
  rw [List.take_succ, h]
  simp

theorem bal_stable (tokens : List Tok) (n : Nat) (h : tokens.length ≤ n) :
    bal tokens n = bal tokens tokens.length := by
  unfold bal
  rw [List.take_of_length_le h, List.take_length]

/-- If the running depth first goes negative at index `j`, the loop of
`parentheses` reaches index `j` and throws there: auxiliary induction over
the remaining tokens. -/
theorem parenGo_error_aux (tokens : List Tok) (j : Nat)
    (hneg : bal tokens (j + 1) < 0) (hpre : ∀ k, k ≤ j → 0 ≤ bal tokens k) :
    ∀ (rest : List Tok) (i : Nat) (level : Int) (parens : List ParenBlock),
      rest = tokens.drop i → i ≤ j → level = bal tokens i →
      parenGo i level parens rest = Except.error j := by
  intro rest
  induction rest with
  | nil =>
    intro i level parens hdrop hij hlvl
    exfalso
    have hlen : tokens.length ≤ i := List.drop_eq_nil_iff.mp hdrop.symm
    have h1 : bal tokens (j + 1) = bal tokens tokens.length :=
      bal_stable _ _ (by omega)
    have h2 : 0 ≤ bal tokens tokens.length := hpre tokens.length (by omega)
    omega
  | cons t rest ih =>
    intro i level parens hdrop hij hlvl
    have hget : tokens[i]? = some t := by
      have h0 := List.getElem?_drop tokens i 0
      rw [← hdrop] at h0
      simpa using h0.symm
    have hdrop' : rest = tokens.drop (i + 1) := by
      rw [← List.tail_drop, ← hdrop]
      rfl
    have hstep : bal tokens (i + 1) = bal tokens i + tokDelta t :=
      bal_succ _ _ _ hget
    cases t with
    | paren_open =>
      have hne : i ≠ j := by
        intro he
        subst he
        have := hpre i (le_refl _)
        simp [tokDelta] at hstep
        omega
      simp only [parenGo]
      exact ih (i + 1) (level + 1) _ hdrop' (by omega)
        (by simp [tokDelta] at hstep; omega)
    | paren_close =>
      simp only [parenGo]
      by_cases hc : i = j
      · subst hc
        have hlt : level - 1 < 0 := by simp [tokDelta] at hstep; omega
        simp [hlt]
      · have hpos : 0 ≤ bal tokens (i + 1) := hpre _ (by omega)
        have hnlt : ¬ level - 1 < 0 := by simp [tokDelta] at hstep; omega
        simp only [hnlt, if_false]
        exact ih (i + 1) (level - 1) _ hdrop' (by omega)
          (by simp [tokDelta] at hstep; omega)
    | other =>
      have hne : i ≠ j := by
        intro he
        subst he
        have := hpre i (le_refl _)
        simp [tokDelta] at hstep
        omega
      simp only [parenGo]
      exact ih (i + 1) level _ hdrop' (by omega)
        (by simp [tokDelta] at hstep; omega)

theorem closeLastAux_append_closed (i : Nat) (xs ys : List ParenBlock)
    (hxs : ∀ x ∈ xs, x.«end» ≠ none) :
    closeLastAux i (xs ++ ys) = xs ++ closeLastAux i ys := by
  induction xs with
  | nil => rfl
  | cons x xs ih =>
    have hx : ¬ x.«end» = none := hxs x (by simp)
    simp only [List.cons_append, closeLastAux, hx, if_false, List.append_eq]
    rw [ih (fun y hy => hxs y (by simp [hy]))]

/-- The backward scan of lines 24–29 closes exactly the last still-open
block: if `b` is open and everything after it is closed, `closeLast`
replaces `b`'s `end` with `i + 1` and touches nothing else. -/
theorem closeLast_spec (i : Nat) (l₁ : List ParenBlock) (b : ParenBlock)
    (l₂ : List ParenBlock) (hb : b.«end» = none)
    (hl₂ : ∀ x ∈ l₂, x.«end» ≠ none) :
    closeLast (l₁ ++ b :: l₂) i = l₁ ++ { b with «end» := some (i + 1) } :: l₂ := by
  unfold closeLast
  rw [List.reverse_append, List.reverse_cons, List.append_assoc]
  rw [closeLastAux_append_closed i l₂.reverse _
    (fun x hx => hl₂ x (List.mem_reverse.mp hx))]
  simp only [List.singleton_append, closeLastAux, hb, if_pos]
  simp

/-- Any list containing an open block decomposes around its last open
block, with everything after it closed. -/
theorem exists_last_open (l : List ParenBlock) (h : ∃ b ∈ l, b.«end» = none) :
    ∃ l₁ b l₂, l = l₁ ++ b :: l₂ ∧ b.«end» = none ∧ ∀ x ∈ l₂, x.«end» ≠ none := by
  induction l using List.reverseRecOn with
  | nil => simp at h
  | append_singleton xs x ih =>
    by_cases hx : x.«end» = none
    · exact ⟨xs, x, [], by simp, hx, by simp⟩
    · obtain ⟨b, hbmem, hbnone⟩ := h
      have hbxs : b ∈ xs := by
        rcases List.mem_append.mp hbmem with h1 | h1
        · exact h1
        · simp only [List.mem_singleton] at h1
          subst h1
          exact absurd hbnone hx
      obtain ⟨l₁, b', l₂, heq, hb', hl₂⟩ := ih ⟨b, hbxs, hbnone⟩
      refine ⟨l₁, b', l₂ ++ [x], by simp [heq], hb', ?_⟩
      intro y hy
      rcases List.mem_append.mp hy with h1 | h1
      · exact hl₂ y h1
      · simp only [List.mem_singleton] at h1
        subst h1
        exact hx

/-- The loop invariant of `parentheses`, at loop index `i` with running
counter `level` and accumulated array `parens`. -/
structure ParenInv (tokens : List Tok) (i : Nat) (level : Int)
    (parens : List ParenBlock) : Prop where
  i_le : i ≤ tokens.length
  lvl_eq : level = bal tokens i
  start_lt : ∀ b ∈ parens, b.start < i
  start_open : ∀ b ∈ parens, tokens[b.start]? = some Tok.paren_open
  sorted : parens.Pairwise (fun b b' => b.start < b'.start)
  level_depth : ∀ b ∈ parens, b.level = bal tokens (b.start + 1)
  opens_levels : (parens.filter (fun b => b.«end».isNone)).map (fun b => b.level)
      = levelList level.toNat
  open_active : ∀ b ∈ parens, b.«end» = none →
      ∀ k, b.start < k → k ≤ i → bal tokens b.start < bal tokens k
  closed_match : ∀ b ∈ parens, ∀ e, b.«end» = some e →
      ∃ m, e = m + 1 ∧ m < i ∧ matchIdx tokens b.start m
  complete : ∀ j, j < i → tokens[j]? = some Tok.paren_open →
      ∃ b ∈ parens, b.start = j

theorem parenInv_init (tokens : List Tok) : ParenInv tokens 0 0 [] where
  i_le := Nat.zero_le _
  lvl_eq := rfl
  start_lt := by simp
  start_open := by simp
  sorted := List.Pairwise.nil
  level_depth := by simp
  opens_levels := by simp [levelList]
  open_active := by simp
  closed_match := by simp
  complete := by simp

theorem levelList_length (n : Nat) : (levelList n).length = n := by
  unfold levelList
  rw [List.length_map, List.length_range]

theorem levelList_succ (n : Nat) :
    levelList (n + 1) = levelList n ++ [(n : Int) + 1] := by
  unfold levelList
  rw [List.range_succ, List.map_append]
  rfl

theorem mem_levelList {n : Nat} {v : Int} (h : v ∈ levelList n) :
    ∃ j : Nat, j < n ∧ v = (j : Int) + 1 := by
  unfold levelList at h
  obtain ⟨j, hj, hjv⟩ := List.mem_map.mp h
  exact ⟨j, List.mem_range.mp hj, hjv.symm⟩

/-- Main invariant preservation: on input whose running depth never goes
negative, the loop of `parentheses` runs to completion and its final state
satisfies the invariant at end of input. -/
theorem parenGo_ok (tokens : List Tok)
    (hnn : ∀ k, k ≤ tokens.length → 0 ≤ bal tokens k) :
    ∀ (rest : List Tok) (i : Nat) (level : Int) (parens : List ParenBlock),
      rest = tokens.drop i → ParenInv tokens i level parens →
      ∃ l, parenGo i level parens rest = Except.ok l ∧
        ParenInv tokens tokens.length (bal tokens tokens.length) l := by
  intro rest
  induction rest with
  | nil =>
    intro i level parens hdrop inv
    have hlen : tokens.length ≤ i := List.drop_eq_nil_iff.mp hdrop.symm
    have hi : i = tokens.length := le_antisymm inv.i_le hlen
    subst hi
    have hlv := inv.lvl_eq
    subst hlv
    exact ⟨parens, rfl, inv⟩
  | cons t rest ih =>
    intro i level parens hdrop inv
    have hget : tokens[i]? = some t := by
      have h0 := List.getElem?_drop tokens i 0
      rw [← hdrop] at h0
      simpa using h0.symm
    have hdrop' : rest = tokens.drop (i + 1) := by
      rw [← List.tail_drop, ← hdrop]
      rfl
    have hilt : i < tokens.length := by
      have hl := congrArg List.length hdrop
      rw [List.length_drop] at hl
      simp at hl
      omega
    have hstep : bal tokens (i + 1) = bal tokens i + tokDelta t :=
      bal_succ _ _ _ hget
    cases t with
    | paren_open =>
      simp only [tokDelta] at hstep
      simp only [parenGo]
      obtain ⟨i_le, lvl_eq, start_lt, start_open, sorted, level_depth,
        opens_levels, open_active, closed_match, complete⟩ := inv
      have hlvl0 : 0 ≤ level := by
        have := hnn i (by omega)
        omega
      have inv' : ParenInv tokens (i + 1) (level + 1)
          (parens ++ [⟨i, none, level + 1⟩]) := by
        refine ⟨by omega, by omega, ?_, ?_, ?_, ?_, ?_, ?_, ?_, ?_⟩
        · intro x hx
          rcases List.mem_append.mp hx with h1 | h1
          · exact lt_trans (start_lt x h1) (by omega)
          · simp only [List.mem_singleton] at h1
            subst h1
            exact Nat.lt_succ_self i
        · intro x hx
          rcases List.mem_append.mp hx with h1 | h1
          · exact start_open x h1
          · simp only [List.mem_singleton] at h1
            subst h1
            exact hget
        · rw [List.pairwise_append]
          refine ⟨sorted, List.pairwise_singleton _ _, ?_⟩
          intro a ha c hc
          simp only [List.mem_singleton] at hc
          subst hc
          exact start_lt a ha
        · intro x hx
          rcases List.mem_append.mp hx with h1 | h1
          · exact level_depth x h1
          · simp only [List.mem_singleton] at h1
            subst h1
            show level + 1 = bal tokens (i + 1)
            omega
        · rw [List.filter_append, List.map_append, opens_levels]
          have h1 : (level + 1).toNat = level.toNat + 1 := by omega
          rw [h1, levelList_succ]
          simp [Int.toNat_of_nonneg hlvl0]
        · intro x hx hxnone k hk1 hk2
          rcases List.mem_append.mp hx with h1 | h1
          · rcases Nat.lt_or_ge k (i + 1) with hk | hk
            · exact open_active x h1 hxnone k hk1 (by omega)
            · have hk' : k = i + 1 := by omega
              subst hk'
              have hbslt : x.start < i := start_lt x h1
              have := open_active x h1 hxnone i hbslt (le_refl i)
              omega
          · simp only [List.mem_singleton] at h1
            subst h1
            have hk1' : i < k := hk1
            have hk' : k = i + 1 := by omega
            subst hk'
            show bal tokens i < bal tokens (i + 1)
            omega
        · intro x hx e he
          rcases List.mem_append.mp hx with h1 | h1
          · obtain ⟨m, hm1, hm2, hm3⟩ := closed_match x h1 e he
            exact ⟨m, hm1, by omega, hm3⟩
          · simp only [List.mem_singleton] at h1
            subst h1
            simp at he
        · intro j hj hjopen
          rcases Nat.lt_or_ge j i with hji | hji
          · obtain ⟨x, hxmem, hxstart⟩ := complete j hji hjopen
            exact ⟨x, List.mem_append_left _ hxmem, hxstart⟩
          · have hj' : i = j := by omega
            subst hj'
            exact ⟨⟨i, none, level + 1⟩, List.mem_append_right _ (by simp), rfl⟩
      exact ih (i + 1) (level + 1) _ hdrop' inv'
    | paren_close =>
      simp only [tokDelta] at hstep
      obtain ⟨i_le, lvl_eq, start_lt, start_open, sorted, level_depth,
        opens_levels, open_active, closed_match, complete⟩ := inv
      have hbal1 : 0 ≤ bal tokens (i + 1) := hnn (i + 1) (by omega)
      have hlvl1 : 1 ≤ level := by omega
      have hnneg : ¬ level - 1 < 0 := by omega
      simp only [parenGo]
      rw [if_neg hnneg]
      have hcount : (parens.filter (fun x => x.«end».isNone)).length = level.toNat := by
        have hc := congrArg List.length opens_levels
        simpa only [List.length_map, levelList_length] using hc
      have hex : ∃ x ∈ parens, x.«end» = none := by
        have hpos : 0 < (parens.filter (fun x => x.«end».isNone)).length := by omega
        rcases List.exists_mem_of_length_pos hpos with ⟨x, hxf⟩
        have hxm := List.mem_filter.mp hxf
        exact ⟨x, hxm.1, Option.isNone_iff_eq_none.mp hxm.2⟩
      obtain ⟨l₁, b, l₂, hdecomp, hbnone, hl₂closed⟩ := exists_last_open parens hex
      have hl₂filter : l₂.filter (fun x => x.«end».isNone) = [] := by
        rw [List.filter_eq_nil_iff]
        intro x hx
        simp only [Option.isNone_iff_eq_none, decide_eq_true_eq]
        exact hl₂closed x hx
      have hbmem : b ∈ parens := by
        rw [hdecomp]
        simp
      have hfilter : parens.filter (fun x => x.«end».isNone)
          = l₁.filter (fun x => x.«end».isNone) ++ [b] := by
        rw [hdecomp, List.filter_append, List.filter_cons]
        simp [hbnone, hl₂filter]
      have hsplit := opens_levels
      rw [hfilter, List.map_append] at hsplit
      have hrange : levelList level.toNat
          = levelList (level.toNat - 1) ++ [((level.toNat - 1 : Nat) : Int) + 1] := by
        have hk : level.toNat = (level.toNat - 1) + 1 := by omega
        conv_lhs => rw [hk]
        exact levelList_succ _
      rw [hrange] at hsplit
      have hlens : ((l₁.filter (fun x => x.«end».isNone)).map (fun x => x.level)).length
          = (levelList (level.toNat - 1)).length := by
        have hcl := congrArg List.length hsplit
        simp only [List.length_append, List.length_map, List.length_singleton,
          levelList_length] at hcl
        simp only [List.length_map, levelList_length]
        omega
      obtain ⟨hfront, hback⟩ := List.append_inj hsplit hlens
      have hblevel : b.level = level := by
        have hb1 : b.level = ((level.toNat - 1 : Nat) : Int) + 1 := by
          simpa using hback
        omega
      have hbstart_open : tokens[b.start]? = some Tok.paren_open := start_open b hbmem
      have hbstep : bal tokens (b.start + 1) = bal tokens b.start + 1 := by
        have hs := bal_succ tokens b.start _ hbstart_open
        simpa [tokDelta] using hs
      have hbbal : bal tokens b.start = level - 1 := by
        have := level_depth b hbmem
        omega
      rw [hdecomp, closeLast_spec i l₁ b l₂ hbnone hl₂closed]
      have hmem' : ∀ x ∈ l₁ ++ { b with «end» := some (i + 1) } :: l₂,
          x = { b with «end» := some (i + 1) } ∨ x ∈ parens := by
        intro x hx
        rcases List.mem_append.mp hx with h1 | h1
        · exact Or.inr (by rw [hdecomp]; exact List.mem_append_left _ h1)
        · rcases List.mem_cons.mp h1 with h2 | h2
          · exact Or.inl h2
          · exact Or.inr (by
              rw [hdecomp]
              exact List.mem_append_right _ (List.mem_cons_of_mem _ h2))
      have inv' : ParenInv tokens (i + 1) (level - 1)
          (l₁ ++ { b with «end» := some (i + 1) } :: l₂) := by
        refine ⟨by omega, by omega, ?_, ?_, ?_, ?_, ?_, ?_, ?_, ?_⟩
        · intro x hx
          rcases hmem' x hx with h2 | h2
          · subst h2
            show b.start < i + 1
            have := start_lt b hbmem
            omega
          · have := start_lt x h2
            omega
        · intro x hx
          rcases hmem' x hx with h2 | h2
          · subst h2
            exact hbstart_open
          · exact start_open x h2
        · have hs := sorted
          rw [hdecomp, List.pairwise_append] at hs
          obtain ⟨hs1, hs2, hs3⟩ := hs
          rw [List.pairwise_cons] at hs2
          obtain ⟨hs2a, hs2b⟩ := hs2
          rw [List.pairwise_append]
          refine ⟨hs1, ?_, ?_⟩
          · rw [List.pairwise_cons]
            exact ⟨fun y hy => hs2a y hy, hs2b⟩
          · intro a ha c hc
            rcases List.mem_cons.mp hc with h2 | h2
            · subst h2
              exact hs3 a ha b (by simp)
            · exact hs3 a ha c (by simp [h2])
        · intro x hx
          rcases hmem' x hx with h2 | h2
          · subst h2
            show b.level = bal tokens (b.start + 1)
            exact level_depth b hbmem
          · exact level_depth x h2
        · have hfilter' : (l₁ ++ { b with «end» := some (i + 1) } :: l₂).filter
              (fun x => x.«end».isNone) = l₁.filter (fun x => x.«end».isNone) := by
            rw [List.filter_append, List.filter_cons]
            simp [hl₂filter]
          rw [hfilter', hfront]
          have ht : (level - 1).toNat = level.toNat - 1 := by omega
          rw [ht]
        · intro x hx hxnone k hk1 hk2
          have hxl₁ : x ∈ l₁ := by
            rcases List.mem_append.mp hx with h3 | h3
            · exact h3
            · rcases List.mem_cons.mp h3 with h4 | h4
              · subst h4
                simp at hxnone
              · exact absurd hxnone (hl₂closed x h4)
          have hxparens : x ∈ parens := by
            rw [hdecomp]
            exact List.mem_append_left _ hxl₁
          rcases Nat.lt_or_ge k (i + 1) with hk | hk
          · exact open_active x hxparens hxnone k hk1 (by omega)
          · have hk' : k = i + 1 := by omega
            subst hk'
            have hxlvl : x.level ∈ (l₁.filter (fun y => y.«end».isNone)).map
                (fun y => y.level) :=
              List.mem_map_of_mem _ (List.mem_filter.mpr ⟨hxl₁, by simp [hxnone]⟩)
            rw [hfront] at hxlvl
            obtain ⟨j, hjlt, hjx⟩ := mem_levelList hxlvl
            have hxbal : bal tokens x.start = x.level - 1 := by
              have h5 := level_depth x hxparens
              have h6 := bal_succ tokens x.start _ (start_open x hxparens)
              simp only [tokDelta] at h6
              omega
            show bal tokens x.start < bal tokens (i + 1)
            omega
        · intro x hx e he
          rcases hmem' x hx with h2 | h2
          · subst h2
            have he' : e = i + 1 := (Option.some.inj he).symm
            refine ⟨i, by omega, by omega, ?_⟩
            show matchIdx tokens b.start i
            refine ⟨start_lt b hbmem, by omega, ?_⟩
            intro k hk1 hk2
            exact open_active b hbmem hbnone k hk1 (by omega)
          · obtain ⟨m, hm1, hm2, hm3⟩ := closed_match x h2 e he
            exact ⟨m, hm1, by omega, hm3⟩
        · intro j hj hjopen
          rcases Nat.lt_or_ge j i with hji | hji
          · obtain ⟨x, hxmem, hxstart⟩ := complete j hji hjopen
            rw [hdecomp] at hxmem
            rcases List.mem_append.mp hxmem with h3 | h3
            · exact ⟨x, List.mem_append_left _ h3, hxstart⟩
            · rcases List.mem_cons.mp h3 with h4 | h4
              · subst h4
                exact ⟨{ x with «end» := some (i + 1) }, by simp, hxstart⟩
              · exact ⟨x, List.mem_append_right _ (List.mem_cons_of_mem _ h4), hxstart⟩
          · exfalso
            have hj' : i = j := by omega
            subst hj'
            rw [hget] at hjopen
            exact Tok.noConfusion (Option.some.inj hjopen)
      exact ih (i + 1) (level - 1) _ hdrop' inv'
    | other =>
      simp only [tokDelta] at hstep
      simp only [parenGo]
      obtain ⟨i_le, lvl_eq, start_lt, start_open, sorted, level_depth,
        opens_levels, open_active, closed_match, complete⟩ := inv
      have inv' : ParenInv tokens (i + 1) level parens := by
        refine ⟨by omega, by omega, fun x hx => by have := start_lt x hx; omega,
          start_open, sorted, level_depth, opens_levels, ?_, ?_, ?_⟩
        · intro x hx hxnone k hk1 hk2
          rcases Nat.lt_or_ge k (i + 1) with hk | hk
          · exact open_active x hx hxnone k hk1 (by omega)
          · have hk' : k = i + 1 := by omega
            subst hk'
            have := open_active x hx hxnone i (start_lt x hx) (le_refl i)
            omega
        · intro x hx e he
          obtain ⟨m, hm1, hm2, hm3⟩ := closed_match x hx e he
          exact ⟨m, hm1, by omega, hm3⟩
        · intro j hj hjopen
          rcases Nat.lt_or_ge j i with hji | hji
          · exact complete j hji hjopen
          · exfalso
            have hj' : i = j := by omega
            subst hj'
            rw [hget] at hjopen
            exact Tok.noConfusion (Option.some.inj hjopen)
      exact ih (i + 1) level parens hdrop' inv'

theorem parentheses_ok_inv (tokens : List Tok)
    (hnn : ∀ k, k ≤ tokens.length → 0 ≤ bal tokens k) :
    ∃ l, parentheses tokens = Except.ok l ∧
      ParenInv tokens tokens.length (bal tokens tokens.length) l :=
  parenGo_ok tokens hnn tokens 0 0 [] rfl (parenInv_init tokens)

/-- Two LIFO-matched ranges are disjoint or strictly nested. -/
theorem matchIdx_nested (tokens : List Tok) {s1 m1 s2 m2 : Nat}
    (h1 : matchIdx tokens s1 m1) (h2 : matchIdx tokens s2 m2) (hs : s1 < s2) :
    m1 < s2 ∨ m2 < m1 := by
  by_contra hcon
  push_neg at hcon
  obtain ⟨hs2m1, hm1m2⟩ := hcon
  obtain ⟨h1a, h1b, h1c⟩ := h1
  obtain ⟨h2a, h2b, h2c⟩ := h2
  have hb1 : bal tokens s1 < bal tokens s2 := h1c s2 hs hs2m1
  rcases Nat.eq_or_lt_of_le hm1m2 with he | hlt
  · rw [he] at h1b
    omega
  · have hb2 : bal tokens s2 < bal tokens (m1 + 1) := h2c (m1 + 1) (by omega) (by omega)
    omega

theorem final_inv_all_closed {tokens : List Tok} {l : List ParenBlock}
    (inv : ParenInv tokens tokens.length (bal tokens tokens.length) l)
    (hbalanced : bal tokens tokens.length = 0) :
    ∀ b ∈ l, ∃ e, b.«end» = some e := by
  intro b hb
  cases hbe : b.«end» with
  | some e => exact ⟨e, rfl⟩
  | none =>
    exfalso
    have hmemf : b ∈ l.filter (fun x => x.«end».isNone) :=
      List.mem_filter.mpr ⟨hb, by simp [hbe]⟩
    have h0 : (l.filter (fun x => x.«end».isNone)).map (fun x => x.level) = [] := by
      rw [inv.opens_levels, hbalanced]
      rfl
    rw [List.map_eq_nil_iff.mp h0] at hmemf
    exact absurd hmemf (List.not_mem_nil b)

/-- C3: for every token sequence containing an excess closing parenthesis
— a `paren_close` token at which the running depth counter first goes
negative (depth nonnegative before index `j`, negative after processing
`j`) — `parentheses` fails with the unbalanced-parenthesis error
reporting that token's index `j`. -/
theorem C3_excess_close_error (tokens : List Tok) (j : Nat)
    (hneg : bal tokens (j + 1) < 0) (hpre : ∀ k, k ≤ j → 0 ≤ bal tokens k) :
    parentheses tokens = Except.error j :=
  parenGo_error_aux tokens j hneg hpre tokens 0 0 [] rfl (Nat.zero_le j)
    (bal_zero tokens).symm

theorem C3_witness :
    parentheses [Tok.paren_open, Tok.paren_close, Tok.paren_close] = Except.error 2 :=
  C3_excess_close_error [Tok.paren_open, Tok.paren_close, Tok.paren_close] 2
    (by decide) (by decide)

/-- C4: for every token sequence with balanced parentheses (running depth
never negative and zero at end of input), `parentheses` succeeds and
returns properly nested blocks — any two are disjoint or one strictly
contains the other — and every `paren_open` token is the start of exactly
one returned block. -/
theorem C4_proper_nesting (tokens : List Tok)
    (hnn : ∀ k, k ≤ tokens.length → 0 ≤ bal tokens k)
    (hbalanced : bal tokens tokens.length = 0) :
    ∃ l, parentheses tokens = Except.ok l ∧
      l.Pairwise (fun b1 b2 => b1.start < b2.start ∧ ∃ e1 e2,
        b1.«end» = some e1 ∧ b2.«end» = some e2 ∧
        (e1 ≤ b2.start ∨ e2 < e1)) ∧
      (∀ j, tokens[j]? = some Tok.paren_open →
        ∃ b, b ∈ l ∧ b.start = j ∧ ∀ b' ∈ l, b'.start = j → b' = b) := by
  obtain ⟨l, hok, inv⟩ := parentheses_ok_inv tokens hnn
  have hallclosed := final_inv_all_closed inv hbalanced
  refine ⟨l, hok, ?_, ?_⟩
  · refine inv.sorted.imp_of_mem ?_
    intro b1 b2 hb1 hb2 hlt
    refine ⟨hlt, ?_⟩
    obtain ⟨e1, he1⟩ := hallclosed b1 hb1
    obtain ⟨e2, he2⟩ := hallclosed b2 hb2
    obtain ⟨m1, hm1e, hm1lt, hm1⟩ := inv.closed_match b1 hb1 e1 he1
    obtain ⟨m2, hm2e, hm2lt, hm2⟩ := inv.closed_match b2 hb2 e2 he2
    refine ⟨e1, e2, he1, he2, ?_⟩
    rcases matchIdx_nested tokens hm1 hm2 hlt with h | h
    · left
      omega
    · right
      omega
  · intro j hjopen
    have hjlt : j < tokens.length := by
      by_contra hge
      push_neg at hge
      rw [List.getElem?_eq_none hge] at hjopen
      exact Option.noConfusion hjopen
    obtain ⟨b, hbmem, hbstart⟩ := inv.complete j hjlt hjopen
    refine ⟨b, hbmem, hbstart, ?_⟩
    intro b' hb'mem hb'start
    by_contra hne
    have hpw : l.Pairwise (fun x y => x.start ≠ y.start) :=
      inv.sorted.imp (fun h => Nat.ne_of_lt h)
    have hneq := List.Pairwise.forall (fun x y h => Ne.symm h) hpw hb'mem hbmem hne
    rw [hb'start, hbstart] at hneq
    exact hneq rfl

theorem C4_witness : ∃ l,
    parentheses [Tok.paren_open, Tok.paren_close] = Except.ok l ∧
      l.Pairwise (fun b1 b2 => b1.start < b2.start ∧ ∃ e1 e2,
        b1.«end» = some e1 ∧ b2.«end» = some e2 ∧
        (e1 ≤ b2.start ∨ e2 < e1)) ∧
      (∀ j, [Tok.paren_open, Tok.paren_close][j]? = some Tok.paren_open →
        ∃ b, b ∈ l ∧ b.start = j ∧ ∀ b' ∈ l, b'.start = j → b' = b) :=
  C4_proper_nesting [Tok.paren_open, Tok.paren_close] (by decide) (by decide)

/-- C5: for every token sequence with balanced parentheses, each returned
block has `start` the index of a `paren_open` token, `level` the nesting
depth of that opening token (at least 1), and `end` one past the index of
the `paren_close` token matching it under LIFO (innermost-first)
matching. -/
theorem C5_block_fields (tokens : List Tok)
    (hnn : ∀ k, k ≤ tokens.length → 0 ≤ bal tokens k)
    (hbalanced : bal tokens tokens.length = 0) :
    ∃ l, parentheses tokens = Except.ok l ∧
      ∀ b ∈ l, tokens[b.start]? = some Tok.paren_open ∧
        b.level = bal tokens (b.start + 1) ∧ 1 ≤ b.level ∧
        ∃ m, b.«end» = some (m + 1) ∧ tokens[m]? = some Tok.paren_close ∧
          matchIdx tokens b.start m := by
  obtain ⟨l, hok, inv⟩ := parentheses_ok_inv tokens hnn
  have hallclosed := final_inv_all_closed inv hbalanced
  refine ⟨l, hok, ?_⟩
  intro b hb
  have hopen := inv.start_open b hb
  have hdepth := inv.level_depth b hb
  have hslt : b.start < tokens.length := inv.start_lt b hb
  have hstep : bal tokens (b.start + 1) = bal tokens b.start + 1 := by
    have hs := bal_succ tokens b.start _ hopen
    simpa [tokDelta] using hs
  have hlvl1 : 1 ≤ b.level := by
    have hnn' := hnn b.start (by omega)
    omega
  obtain ⟨e, he⟩ := hallclosed b hb
  obtain ⟨m, hme, hmlt, hmatch⟩ := inv.closed_match b hb e he
  refine ⟨hopen, hdepth, hlvl1, m, by rw [he, hme], ?_, hmatch⟩
  obtain ⟨hsm, hbeq, hgt⟩ := hmatch
  cases htm : tokens[m]? with
  | none =>
    exfalso
    rw [List.getElem?_eq_getElem hmlt] at htm
    exact Option.noConfusion htm
  | some t =>
    have hstepm : bal tokens (m + 1) = bal tokens m + tokDelta t :=
      bal_succ tokens m t htm
    have hbalm : bal tokens b.start < bal tokens m := hgt m hsm (le_refl m)
    cases t with
    | paren_open =>
      exfalso
      simp only [tokDelta] at hstepm
      omega
    | paren_close => rfl
    | other =>
      exfalso
      simp only [tokDelta] at hstepm
      omega

theorem C5_witness : ∃ l,
    parentheses [Tok.paren_open, Tok.paren_open, Tok.paren_close, Tok.paren_close]
      = Except.ok l ∧
    ∀ b ∈ l,
      [Tok.paren_open, Tok.paren_open, Tok.paren_close,
        Tok.paren_close][b.start]? = some Tok.paren_open ∧
      b.level = bal [Tok.paren_open, Tok.paren_open, Tok.paren_close,
        Tok.paren_close] (b.start + 1) ∧ 1 ≤ b.level ∧
      ∃ m, b.«end» = some (m + 1) ∧
        [Tok.paren_open, Tok.paren_open, Tok.paren_close,
          Tok.paren_close][m]? = some Tok.paren_close ∧
        matchIdx [Tok.paren_open, Tok.paren_open, Tok.paren_close,
          Tok.paren_close] b.start m :=
  C5_block_fields [Tok.paren_open, Tok.paren_open, Tok.paren_close, Tok.paren_close]
    (by decide) (by decide)

/-- C7: for every token sequence whose running depth never goes negative
but is still positive at end of input (trailing unclosed opening
parentheses), `parentheses` returns normally — no error — and the
unclosed blocks keep `end = null`: the returned list contains exactly
`bal tokens tokens.length` blocks with `end = none`, in particular at
least one. -/
theorem C7_trailing_open_no_error (tokens : List Tok)
    (hnn : ∀ k, k ≤ tokens.length → 0 ≤ bal tokens k)
    (hpos : 0 < bal tokens tokens.length) :
    ∃ l, parentheses tokens = Except.ok l ∧
      ((l.filter (fun b => b.«end».isNone)).length : Int) = bal tokens tokens.length ∧
      ∃ b ∈ l, b.«end» = none := by
  obtain ⟨l, hok, inv⟩ := parentheses_ok_inv tokens hnn
  have hcount : (l.filter (fun b => b.«end».isNone)).length
      = (bal tokens tokens.length).toNat := by
    have hc := congrArg List.length inv.opens_levels
    simpa only [List.length_map, levelList_length] using hc
  refine ⟨l, hok, by rw [hcount]; omega, ?_⟩
  have hposn : 0 < (l.filter (fun b => b.«end».isNone)).length := by omega
  rcases List.exists_mem_of_length_pos hposn with ⟨b, hbf⟩
  have h := List.mem_filter.mp hbf
  exact ⟨b, h.1, Option.isNone_iff_eq_none.mp h.2⟩

theorem C7_witness : ∃ l,
    parentheses [Tok.paren_open, Tok.paren_open, Tok.paren_close] = Except.ok l ∧
      ((l.filter (fun b => b.«end».isNone)).length : Int)
        = bal [Tok.paren_open, Tok.paren_open, Tok.paren_close] 3 ∧
      ∃ b ∈ l, b.«end» = none :=
  C7_trailing_open_no_error [Tok.paren_open, Tok.paren_open, Tok.paren_close]
    (by decide) (by decide)

theorem intLit_floor_eq (q : ℚ) (h : q.den = 1) : (q.floor : ℚ) = q := by
  rw [Rat.floor_def', h]
  push_cast
  simp
  exact_mod_cast (Rat.den_eq_one_iff q).mp h

/-- On trees without `'^'` and with integer-valued literals the two
`traverse` walks compute the same value. -/
theorem traverse_agree (t : Node) (vars : List (String × ℚ))
    (hnp : noPow t = true) (hint : intLiterals t = true) :
    traverseE t vars = traverseF t vars := by
  induction t with
  | block c ih =>
    simp only [traverseE, traverseF]
    exact ih hnp hint
  | unary_operator op c ih =>
    simp only [traverseE, traverseF]
    rw [ih hnp hint]
  | binary_operator op l r ihl ihr =>
    simp only [noPow, Bool.and_eq_true, Bool.not_eq_true',
      beq_eq_false_iff_ne] at hnp
    obtain ⟨⟨hne, hnpl⟩, hnpr⟩ := hnp
    simp only [intLiterals, Bool.and_eq_true] at hint
    obtain ⟨hintl, hintr⟩ := hint
    simp only [traverseE, traverseF, ihl hnpl hintl, ihr hnpr hintr, hne,
      if_false]
  | literal value =>
    simp only [intLiterals, beq_iff_eq] at hint
    simp only [traverseE, traverseF, jsParseFloat, jsParseInt,
      intLit_floor_eq value hint]
  | «variable» name => rfl

/-- C1 (counterexample): the pipeline accepts `2 ^ 3` (a well-formed tree
per the specification's grammar), yet with the empty binding mapping —
which passes both checks — the compiled evaluator returns `8` while
`fastEvaluate` returns no number (`undefined`), so the two evaluators do
not agree on every accepted expression with integer literals. -/
theorem C1_counterexample :
    wellFormed powTree = true ∧
    «calc» [] powTree emptyObj = Except.ok (some 8) ∧
    fastEvaluate powTree [] emptyObj = Except.ok none ∧
    (Except.ok (some (8 : ℚ)) : Except EvalError (Option ℚ)) ≠ Except.ok none :=
  ⟨by decide, by decide, by decide, by decide⟩

/-- C1 (amended): for every expression accepted by the pipeline that
contains no `'^'` operator and whose literals are all integer-valued, and
every binding mapping that passes the arity and presence checks, the
compiled evaluator's `calc` and the direct evaluator `fastEvaluate`
return the same result. -/
theorem C1_amended_agreement (t : Node) (unknowns : List String) (vars : JSObj)
    (_hwf : wellFormed t = true) (hnp : noPow t = true)
    (hint : intLiterals t = true)
    (hlen : vars.entries.length = unknowns.length)
    (hpres : ∀ v ∈ unknowns, hasOwnProperty vars.entries v = true) :
    «calc» unknowns t vars = fastEvaluate t unknowns vars := by
  unfold «calc» fastEvaluate
  simp only [if_neg (show ¬ vars.entries.length ≠ unknowns.length by omega)]
  cases hfind : unknowns.find? (fun x => !(hasOwnProperty vars.entries x)) with
  | some w =>
    exfalso
    have hwmem := List.mem_of_find?_eq_some hfind
    have hwp := List.find?_some hfind
    rw [hpres w hwmem] at hwp
    simp at hwp
  | none =>
    show Except.ok (traverseE t vars.entries) = Except.ok (traverseF t vars.entries)
    rw [traverse_agree t vars.entries hnp hint]

theorem C1_witness :
    «calc» [] (Node.binary_operator "+" (Node.literal 2) (Node.literal 3)) emptyObj
      = fastEvaluate (Node.binary_operator "+" (Node.literal 2) (Node.literal 3))
        [] emptyObj :=
  C1_amended_agreement _ [] emptyObj (by decide) (by decide) (by decide)
    (by decide) (by decide)

/-- C2: `calc(bindings)` fails with the arity error exactly when the
number of keys differs from `unknowns.length`; when the count matches but
some unknown is missing it fails with the missing-variable error naming
an absent variable; otherwise it returns the result of evaluating the
tree. -/
theorem C2_calc_checks (unknowns : List String) (t : Node) (vars : JSObj) :
    ((∃ a b, «calc» unknowns t vars = Except.error (EvalError.arity a b)) ↔
      vars.entries.length ≠ unknowns.length) ∧
    (vars.entries.length = unknowns.length →
      (∃ v ∈ unknowns, hasOwnProperty vars.entries v = false) →
      ∃ v, v ∈ unknowns ∧ hasOwnProperty vars.entries v = false ∧
        «calc» unknowns t vars = Except.error (EvalError.missingVariable v)) ∧
    (vars.entries.length = unknowns.length →
      (∀ v ∈ unknowns, hasOwnProperty vars.entries v = true) →
      «calc» unknowns t vars = Except.ok (traverseE t vars.entries)) := by
  refine ⟨⟨?_, ?_⟩, ?_, ?_⟩
  · rintro ⟨a, b, hab⟩
    intro heq
    unfold «calc» at hab
    rw [if_neg (by omega)] at hab
    cases hfind : unknowns.find? (fun x => !(hasOwnProperty vars.entries x)) with
    | some w =>
      rw [hfind] at hab
      exact EvalError.noConfusion (Except.error.inj hab)
    | none =>
      rw [hfind] at hab
      exact Except.noConfusion hab
  · intro hne
    exact ⟨unknowns.length, vars.entries.length, by unfold «calc»; rw [if_pos hne]⟩
  · rintro hlen ⟨v, hv, hvfalse⟩
    cases hfind : unknowns.find? (fun x => !(hasOwnProperty vars.entries x)) with
    | none =>
      exfalso
      have hnone := List.find?_eq_none.mp hfind v hv
      simp [hvfalse] at hnone
    | some w =>
      have hwmem := List.mem_of_find?_eq_some hfind
      have hwp := List.find?_some hfind
      refine ⟨w, hwmem, by simpa using hwp, ?_⟩
      unfold «calc»
      rw [if_neg (by omega), hfind]
  · intro hlen hall
    unfold «calc»
    rw [if_neg (by omega)]
    cases hfind : unknowns.find? (fun x => !(hasOwnProperty vars.entries x)) with
    | some w =>
      exfalso
      have hwmem := List.mem_of_find?_eq_some hfind
      have hwp := List.find?_some hfind
      rw [hall w hwmem] at hwp
      simp at hwp
    | none => rfl

theorem C2_witness :
    «calc» ["x"] (Node.literal 1) xObj = Except.ok (some 1) :=
  (C2_calc_checks ["x"] (Node.literal 1) xObj).2.2 (by decide) (by decide)

/-- C6: the direct path parses a literal with the integer-truncating
`parseInt` while the compiled path uses the decimal-preserving
`parseFloat`; on the literal `2.5` (the rational `5/2`) the two paths
therefore compute from different values. -/
theorem C6_literal_parse_inconsistency :
    (∀ (value : ℚ) (vars : List (String × ℚ)),
      traverseE (Node.literal value) vars = some (jsParseFloat value) ∧
      traverseF (Node.literal value) vars = some (jsParseInt value)) ∧
    «calc» [] (Node.literal twoPointFive) emptyObj
      = Except.ok (some twoPointFive) ∧
    fastEvaluate (Node.literal twoPointFive) [] emptyObj
      = Except.ok (some 2) ∧
    twoPointFive ≠ 2 :=
  ⟨fun _ _ => ⟨rfl, rfl⟩, by decide, by decide, by decide⟩

/-- C8: division by zero is not special-cased into an error by either
evaluator: whenever the binding checks pass, both `calc` and
`fastEvaluate` return `Except.ok` — never an error — even when the tree
contains a division whose right operand evaluates to zero (the resulting
non-finite value, JavaScript's `Infinity`/`NaN`, is modelled as
`none`). -/
theorem C8_division_by_zero_no_error (t : Node) (unknowns : List String)
    (vars : JSObj) (_hwf : wellFormed t = true)
    (hlen : vars.entries.length = unknowns.length)
    (hpres : ∀ v ∈ unknowns, hasOwnProperty vars.entries v = true)
    (_hdiv : ∃ l r, Node.binary_operator "/" l r ∈ t.subterms ∧
      traverseE r vars.entries = some 0) :
    (∃ v, «calc» unknowns t vars = Except.ok v) ∧
    (∃ v, fastEvaluate t unknowns vars = Except.ok v) := by
  unfold «calc» fastEvaluate
  simp only [if_neg (show ¬ vars.entries.length ≠ unknowns.length by omega)]
  cases hfind : unknowns.find? (fun x => !(hasOwnProperty vars.entries x)) with
  | some w =>
    exfalso
    have hwmem := List.mem_of_find?_eq_some hfind
    have hwp := List.find?_some hfind
    rw [hpres w hwmem] at hwp
    simp at hwp
  | none =>
    exact ⟨⟨_, rfl⟩, ⟨_, rfl⟩⟩

theorem C8_witness :
    (∃ v, «calc» [] divZeroTree emptyObj = Except.ok v) ∧
    (∃ v, fastEvaluate divZeroTree [] emptyObj = Except.ok v) :=
  C8_division_by_zero_no_error divZeroTree [] emptyObj (by decide) (by decide)
    (by decide) ⟨Node.literal 1, Node.literal 0, by decide, by decide⟩

/-- C9: `fastEvaluate` performs exactly the arity and missing-variable
checks of the compiled path's `calc`, before its walk: it fails with an
error precisely when `calc` does (and with the same error), and on a
failing binding mapping its result does not depend on the tree at all. -/
theorem C9_fast_same_checks (t t' : Node) (unknowns : List String) (vars : JSObj) :
    (∀ e, fastEvaluate t unknowns vars = Except.error e ↔
      «calc» unknowns t vars = Except.error e) ∧
    ((vars.entries.length ≠ unknowns.length ∨
        ∃ v ∈ unknowns, hasOwnProperty vars.entries v = false) →
      fastEvaluate t unknowns vars = fastEvaluate t' unknowns vars ∧
        ∃ e, fastEvaluate t unknowns vars = Except.error e) := by
  constructor
  · intro e
    unfold fastEvaluate «calc»
    by_cases hlen : vars.entries.length ≠ unknowns.length
    · simp only [if_pos hlen]
    · simp only [if_neg hlen]
      cases hfind : unknowns.find? (fun x => !(hasOwnProperty vars.entries x)) with
      | some w => exact Iff.rfl
      | none => simp
  · intro hbad
    unfold fastEvaluate
    by_cases hlen : vars.entries.length ≠ unknowns.length
    · simp only [if_pos hlen]
      exact ⟨trivial, ⟨_, rfl⟩⟩
    · simp only [if_neg hlen]
      rcases hbad with hbad | ⟨v, hv, hvf⟩
      · exact absurd hbad hlen
      · cases hfind : unknowns.find? (fun x => !(hasOwnProperty vars.entries x)) with
        | none =>
          exfalso
          have hnone := List.find?_eq_none.mp hfind v hv
          simp [hvf] at hnone
        | some w =>
          exact ⟨rfl, ⟨_, rfl⟩⟩

theorem C9_witness :
    fastEvaluate (Node.literal 1) ["y"] emptyObj
      = fastEvaluate (Node.«variable» "y") ["y"] emptyObj ∧
    ∃ e, fastEvaluate (Node.literal 1) ["y"] emptyObj = Except.error e :=
  (C9_fast_same_checks (Node.literal 1) (Node.«variable» "y") ["y"] emptyObj).2
    (Or.inl (by decide))

/-- C10: the direct walk of `fastEvaluate` handles only `+ - * /`: on
every `binary_operator` node with operator `'^'` it matches no case and
yields no number (`undefined`, modelled `none`), while the compiled
walk evaluates `'^'` via exponentiation — e.g. `2 ^ 3` gives `8`
compiled and `undefined` direct. -/
theorem C10_fast_pow_undefined :
    (∀ (l r : Node) (vars : List (String × ℚ)),
      traverseF (Node.binary_operator "^" l r) vars = none) ∧
    (∀ (l r : Node) (vars : List (String × ℚ)),
      traverseE (Node.binary_operator "^" l r) vars =
        (traverseE l vars).bind (fun a =>
          (traverseE r vars).bind (fun b => jsPow a b))) ∧
    traverseE powTree [] = some 8 ∧ traverseF powTree [] = none :=
  ⟨fun _ _ _ => rfl, fun _ _ _ => rfl, by decide, by decide⟩

example : parentheses [Tok.paren_open, Tok.other, Tok.paren_close] =
    Except.ok [⟨0, some 3, 1⟩] := by decide

example : parentheses [Tok.paren_close] = Except.error 0 := by decide

example : parentheses [Tok.paren_open, Tok.paren_open, Tok.paren_close] =
    Except.ok [⟨0, none, 1⟩, ⟨1, some 3, 2⟩] := by decide

example : «calc» [] powTree emptyObj = Except.ok (some 8) := by decide

example : fastEvaluate powTree [] emptyObj = Except.ok none := by decide

example : «calc» [] divZeroTree emptyObj = Except.ok none := by decide
